import Mathlib

/-!
Verification of the orm repository (PostgreSQL ORM toolkit for Node.js).

The development shallowly embeds the repository's JavaScript sources:

* `src/lib/convert-keys.js` — key-convention conversion (`ConvertKeys`);
* `src/lib/db.js`          — the database interface: `convertSpec`, `exec`,
  `transact` (`Db`);
* `src/lib/model.js`       — the model base type: `extend`, the mode/ctx
  resolution prefix of `save` (`ModelJs`);
* `src/lib/link-models.js` — the `isReferenced` extender (`LinkModels`).

JavaScript values are modelled by the mutual inductive `JsVal`/`JsArr`/`JsObj`
(objects as ordered key/value sequences, `undefined` explicit). External
collaborators are parameters: the SQL builder (mongo-sql) is an opaque
function, the pg driver an outcome function from client/statement/values to a
result or error. Asynchronous effects are made explicit: connection
acquisition, statement execution, event emission and release are recorded in
an append-only event list, and `new Date()` reads an abstract clock counter.
-/

mutual

/-- JavaScript values: primitives, `null`/`undefined`, arrays and plain
objects. Objects are ordered sequences of key/value entries, matching the
insertion-ordered string keys of a JS object; `NaN` and function values are
not needed by the embedded code paths and are not represented. -/
inductive JsVal where
  | null
  | undefined
  | bool (b : Bool)
  | num (n : Int)
  | str (s : String)
  | arr (elems : JsArr)
  | obj (fields : JsObj)

inductive JsArr where
  | nil
  | cons (hd : JsVal) (tl : JsArr)

inductive JsObj where
  | nil
  | cons (key : String) (val : JsVal) (tl : JsObj)

end

/-- The entries of a JS object, in insertion order. -/
def JsObj.entries : JsObj → List (String × JsVal)
  | .nil => []
  | .cons k v t => (k, v) :: t.entries

/-- A `JsArr` as a Lean list. -/
def JsArr.toList : JsArr → List JsVal
  | .nil => []
  | .cons x xs => x :: xs.toList

/-- A Lean list as a `JsArr`. -/
def JsArr.ofList : List JsVal → JsArr
  | [] => .nil
  | x :: xs => .cons x (JsArr.ofList xs)

/-- JavaScript truthiness: `null`, `undefined`, `false`, `0` and `''` are
falsy; every object and array is truthy. -/
def jsTruthy : JsVal → Bool
  | .null => false
  | .undefined => false
  | .bool b => b
  | .num n => n != 0
  | .str s => !s.isEmpty
  | .arr _ => true
  | .obj _ => true

mutual

/-- Structural equality of JS values, used where the source compares values
(`Array.prototype.includes`, `_.uniq` — SameValueZero on the values the
embedded code handles). -/
def jsEq : JsVal → JsVal → Bool
  | .null, .null => true
  | .undefined, .undefined => true
  | .bool a, .bool b => a == b
  | .num a, .num b => a == b
  | .str a, .str b => a == b
  | .arr a, .arr b => jsEqArr a b
  | .obj a, .obj b => jsEqObj a b
  | _, _ => false

def jsEqArr : JsArr → JsArr → Bool
  | .nil, .nil => true
  | .cons a as, .cons b bs => jsEq a b && jsEqArr as bs
  | _, _ => false

def jsEqObj : JsObj → JsObj → Bool
  | .nil, .nil => true
  | .cons k v t, .cons k' v' t' => k == k' && jsEq v v' && jsEqObj t t'
  | _, _ => false

end

/-- JS `key.startsWith('$')`: the first character is the reserved marker. -/
def startsWithDollar (s : String) : Bool := s.toList.head? == some '$'

/-! ### lodash word splitting and case conversion

`_.snakeCase` and `_.camelCase` are external collaborators (lodash); they are
modelled at the interface for ASCII identifiers: the input is split into
words (runs of letters or digits, with a new word starting at a
lower-to-upper transition, at the last upper of an upper run followed by a
lower, and at letter/digit transitions; other characters separate words), and
the words are rejoined lowercased with `_` (snake) or capitalized and
concatenated (camel). -/

def isUpperAlpha (c : Char) : Bool := 'A' ≤ c && c ≤ 'Z'

def isLowerAlpha (c : Char) : Bool := 'a' ≤ c && c ≤ 'z'

def isDigitCh (c : Char) : Bool := '0' ≤ c && c ≤ '9'

def isAlnum (c : Char) : Bool := isUpperAlpha c || isLowerAlpha c || isDigitCh c

def lowerCh (c : Char) : Char := if isUpperAlpha c then Char.ofNat (c.toNat + 32) else c

def upperCh (c : Char) : Char := if isLowerAlpha c then Char.ofNat (c.toNat - 32) else c

/-- Word boundary before `c`, given the previous character `p` of the current
word and the character `nxt` following `c`. -/
def wordBoundary (p c : Char) (nxt : Option Char) : Bool :=
  (isUpperAlpha c && (isLowerAlpha p || isDigitCh p)) ||
  (isUpperAlpha p && isUpperAlpha c && (match nxt with | some n => isLowerAlpha n | none => false)) ||
  (isDigitCh c && (isLowerAlpha p || isUpperAlpha p)) ||
  ((isLowerAlpha c || isUpperAlpha c) && isDigitCh p)

/-- Splits characters into words; `cur` is the current word, reversed. -/
def wordsGo (cur : List Char) : List Char → List (List Char)
  | [] => if cur.isEmpty then [] else [cur.reverse]
  | c :: cs =>
      if !isAlnum c then
        if cur.isEmpty then wordsGo [] cs else cur.reverse :: wordsGo [] cs
      else
        match cur with
        | [] => wordsGo [c] cs
        | p :: _ =>
            if wordBoundary p c cs.head? then cur.reverse :: wordsGo [c] cs
            else wordsGo (c :: cur) cs

def wordsOf (s : String) : List (List Char) := wordsGo [] s.toList

def joinUnderscore : List (List Char) → List Char
  | [] => []
  | [w] => w
  | w :: ws => w ++ '_' :: joinUnderscore ws

/-- Model of lodash `_.snakeCase` on ASCII identifiers. -/
def snakeCase (s : String) : String := ⟨joinUnderscore ((wordsOf s).map (·.map lowerCh))⟩

def capWord : List Char → List Char
  | [] => []
  | c :: cs => upperCh c :: cs.map lowerCh

/-- Model of lodash `_.camelCase` on ASCII identifiers. -/
def camelCase (s : String) : String :=
  match wordsOf s with
  | [] => ""
  | w :: ws => ⟨w.map lowerCh ++ (ws.map capWord).flatten⟩

namespace ConvertKeys

mutual

/-- Embeds `toSnakeCaseDeep` (src/lib/convert-keys.js 8-29). Arrays recurse
through `target.map(toSnakeCaseDeep)`; falsy values, non-objects and empty
objects are returned as-is; for a non-empty object, `_.mapKeys` renames every
key except those starting with `'$'` (left as conditional helpers) and
`_.mapValues` then recurses into every value — the key renaming does not
depend on the values, so the two passes are fused entrywise here. -/
def toSnakeCaseDeep : JsVal → JsVal
  | .arr xs => .arr (toSnakeCaseDeepArr xs)
  | .obj .nil => .obj .nil
  | .obj fields => .obj (toSnakeCaseDeepObj fields)
  | v => v

def toSnakeCaseDeepArr : JsArr → JsArr
  | .nil => .nil
  | .cons x xs => .cons (toSnakeCaseDeep x) (toSnakeCaseDeepArr xs)

def toSnakeCaseDeepObj : JsObj → JsObj
  | .nil => .nil
  | .cons k v t =>
      .cons (if startsWithDollar k then k else snakeCase k) (toSnakeCaseDeep v)
        (toSnakeCaseDeepObj t)

end

/-- Which return path of `toSnakeCaseDeep` yields the argument itself (JS
`===`): an array input goes through `Array.prototype.map`, which always
allocates a fresh array; a non-empty object goes through `_.mapKeys`, which
always allocates a fresh object; every other input executes `return target`
(primitives compare `===` to themselves, and the empty object is returned by
reference). -/
def returnsSameRef : JsVal → Bool
  | .arr _ => false
  | .obj .nil => true
  | .obj _ => false
  | _ => true

inductive ConvErr where
  | typeError
deriving DecidableEq, Repr

/-- Embeds `toCamelCase` (src/lib/convert-keys.js 36-38):
`_.mapKeys(target, (v, k) => _.camelCase(k))`. lodash `mapKeys` never throws:
for a non-object argument it iterates no own enumerable keys and returns
`{}`; an array argument yields an object keyed by its (camelCased) index
strings. The result is wrapped in `Except` so that the no-throw property is
statable; no input reaches an error. -/
def toCamelCase (v : JsVal) : Except ConvErr JsVal :=
  .ok (match v with
    | .obj fields => .obj (toCamelCaseObj fields)
    | .arr xs => .obj (indexObj 0 xs)
    | _ => .obj .nil)
where
  toCamelCaseObj : JsObj → JsObj
    | .nil => .nil
    | .cons k val t => .cons (camelCase k) val (toCamelCaseObj t)
  indexObj (i : Nat) : JsArr → JsObj
    | .nil => .nil
    | .cons x xs => .cons (camelCase (toString i)) x (indexObj (i + 1) xs)

/-- A JS value is a non-empty object. -/
def isNonEmptyObj : JsVal → Bool
  | .obj (.cons _ _ _) => true
  | _ => false

/-- A JS value is an array. -/
def isArrVal : JsVal → Bool
  | .arr _ => true
  | _ => false

/-- The field list of an object value (empty for non-objects). -/
def objFields (v : JsVal) : List (String × JsVal) :=
  match v with
  | .obj fields => fields.entries
  | _ => []

end ConvertKeys

namespace Db

/-- Connection and clock counters threaded through the effectful embedding:
`nextClient` numbers the connections the pool hands out, `clock` the
`new Date()` reads. -/
structure Cnt where
  nextClient : Nat
  clock : Nat
deriving DecidableEq, Repr

/-- Errors of the database layer: the `ARGUMENTS_INVALID` err-code, the
TypeError a property access on `null`/`undefined` raises, and driver
(PostgreSQL) errors abstracted as codes. The source's annotation of a driver
error with `err.statement`/`err.values` mutates diagnostic fields of the
thrown object and is not represented. -/
inductive DbErr where
  | argumentsInvalid
  | typeError
  | driver (code : Nat)
deriving DecidableEq, Repr

/-- An execution-options (ctx) object: the reserved `client` key (a
checked-out connection, by number) and the `op` key that `transact`
saves/restores; other caller keys are irrelevant to the embedded paths. -/
structure ExecOpts where
  client : Option Nat := none
  op : Option String := none
deriving DecidableEq, Repr

/-- The result a successful `client.query` resolves with. -/
structure QueryRes where
  rows : List JsVal

/-- The completion record `exec` emits with its `execFinish` event
(src/lib/db.js 82-95). -/
structure FinishRec where
  spec : Option JsVal
  statement : String
  values : List JsVal
  execOpts : ExecOpts
  startedAt : Nat
  finishedAt : Nat
  ms : Nat
  result : Option QueryRes
  err : Option DbErr

/-- Observable effects of the database layer, in order of occurrence:
`pool.connect()`, `client.query(statement, values)`, the `execFinish`
emission, `client.release()`. -/
inductive Ev where
  | connect (cid : Nat)
  | query (cid : Nat) (statement : String) (values : List JsVal)
  | emitFinish (data : FinishRec)
  | release (cid : Nat)

/-- The pg driver as an outcome function: what `client.query` on connection
`cid` resolves or rejects with. -/
abbrev Driver := Nat → String → List JsVal → Except DbErr QueryRes

/-- The external SQL builder (mongo-sql `specParser.sql`): statement text and
positional values for a spec. -/
abbrev SqlBuilder := JsVal → String × List JsVal

/-- JS `typeof x === 'object'`: true for `null`, arrays and objects. -/
def typeofIsObject : JsVal → Bool
  | .null => true
  | .obj _ => true
  | .arr _ => true
  | _ => false

/-- Reading `target[k]`: a TypeError on `null`/`undefined`, the entry (or
`undefined`) on an object, `undefined` on values whose own properties the
model does not track. -/
def getPropJs : JsVal → String → Except DbErr JsVal
  | .null, _ => .error .typeError
  | .undefined, _ => .error .typeError
  | .obj fields, k => .ok ((((fields.entries).find? (fun kv => kv.1 == k)).map (·.2)).getD .undefined)
  | _, _ => .ok .undefined

/-- Setting an object entry: overwrite in place if the key exists, append
otherwise (JS property assignment on a plain object). -/
def setEntry : JsObj → String → JsVal → JsObj
  | .nil, k, v => .cons k v .nil
  | .cons k' v' t, k, v => if k' == k then .cons k' v t else .cons k' v' (setEntry t k v)

/-- Writing `target[k] = v`: a TypeError on `null`/`undefined`; on arrays and
primitives the named-property write has no effect visible to this model. -/
def setPropJs : JsVal → String → JsVal → Except DbErr JsVal
  | .null, _, _ => .error .typeError
  | .undefined, _, _ => .error .typeError
  | .obj fields, k, v => .ok (.obj (setEntry fields k v))
  | other, _, _ => .ok other

/-- One step of the loop in `convertSpec` (src/lib/db.js 33):
`alteredSpec[k] = convertKeys.toSnakeCaseDeep(alteredSpec[k])` — the read of
`alteredSpec[k]` is evaluated first, then the write. -/
def assignConverted (s : JsVal) (k : String) : Except DbErr JsVal := do
  let v ← getPropJs s k
  setPropJs s k (ConvertKeys.toSnakeCaseDeep v)

/-- Embeds `Db#convertSpec` (src/lib/db.js 25-38): rejects with
`ARGUMENTS_INVALID` when `typeof spec !== 'object'`; otherwise works on a
deep clone of the spec (the clone is the identity on values here), converts
the `values`, `where` and `order` subtrees to snake_case, and hands the
result to the external SQL builder. Returns the altered spec with the built
statement and positional values. -/
def convertSpec (build : SqlBuilder) (spec : JsVal) :
    Except DbErr (JsVal × String × List JsVal) := do
  if !typeofIsObject spec then
    throw DbErr.argumentsInvalid
  let a1 ← assignConverted spec "values"
  let a2 ← assignConverted a1 "where"
  let a3 ← assignConverted a2 "order"
  let parsed := build a3
  return (a3, parsed)

/-- Embeds the body of `Db#exec` from the point where statement, values and
execOpts are resolved (src/lib/db.js 80-118): take `execOpts.client` or
connect a fresh client; run the statement; in a `finally`, stamp
`finishedAt`, emit exactly one `execFinish` record, and release the client
unless it came from `execOpts.client`. -/
def execRun (driver : Driver) (spec : Option JsVal) (statement : String)
    (values : List JsVal) (execOpts : ExecOpts) (cnt : Cnt) :
    Except DbErr QueryRes × Cnt × List Ev :=
  let acquired := execOpts.client.isNone
  let client := match execOpts.client with
    | some c => c
    | none => cnt.nextClient
  let cnt1 : Cnt := if acquired then ⟨cnt.nextClient + 1, cnt.clock⟩ else cnt
  let startedAt := cnt1.clock
  let qres := driver client statement values
  let finishedAt := cnt1.clock + 1
  let cnt2 : Cnt := ⟨cnt1.nextClient, cnt1.clock + 2⟩
  let data : FinishRec :=
    { spec := spec, statement := statement, values := values, execOpts := execOpts,
      startedAt := startedAt, finishedAt := finishedAt, ms := finishedAt - startedAt,
      result := qres.toOption,
      err := match qres with | .error e => some e | .ok _ => none }
  (qres, cnt2,
    (if acquired then [Ev.connect client] else []) ++
      [Ev.query client statement values, Ev.emitFinish data] ++
      (if acquired then [Ev.release client] else []))

/-- The second argument of `Db#exec`: a values array, an execOpts object, or
absent. -/
inductive ValuesOrOpts where
  | vals (vs : List JsVal)
  | opts (o : ExecOpts)
  | undefined

/-- `Array.isArray(valuesOrExecOpts)`. -/
def isArrArg : ValuesOrOpts → Bool
  | .vals _ => true
  | _ => false

/-- Embeds the overload resolution of `Db#exec` (src/lib/db.js 49-78) and
chains into `execRun`. A string first argument is the statement; the second
argument is the values when it is an array or a third argument is present,
and the execOpts otherwise. An object first argument (including `null` and
arrays — `typeof` is `'object'`) is a spec for `convertSpec`, whose failure
rejects the call before any event. Anything else rejects with
`ARGUMENTS_INVALID`. A non-array second argument used as values (string
statement plus explicit third argument) is a degenerate call the model maps
to an empty values list. -/
def exec (driver : Driver) (build : SqlBuilder) (statementOrSpec : JsVal)
    (valuesOrExecOpts : ValuesOrOpts) (execOpts3 : Option ExecOpts) (cnt : Cnt) :
    Except DbErr QueryRes × Cnt × List Ev :=
  match statementOrSpec with
  | .str statement =>
      if isArrArg valuesOrExecOpts || execOpts3.isSome then
        let values := match valuesOrExecOpts with
          | .vals vs => vs
          | _ => []
        execRun driver none statement values (execOpts3.getD {}) cnt
      else
        let eo := match valuesOrExecOpts with
          | .opts o => o
          | _ => {}
        execRun driver none statement [] eo cnt
  | .null | .obj _ | .arr _ =>
      match convertSpec build statementOrSpec with
      | .error e => (.error e, cnt, [])
      | .ok (spec2, statement, values) =>
          let eo := match valuesOrExecOpts with
            | .opts o => o
            | .vals _ => {}
            | .undefined => {}
          execRun driver (some spec2) statement values eo cnt
  | _ => (.error .argumentsInvalid, cnt, [])

/-- The `client` carried by an optional execOpts (`execOpts && execOpts.client`;
a client object is always truthy). -/
def ctxClient : Option ExecOpts → Option Nat
  | some o => o.client
  | none => none

/-- Embeds `Db#transact` (src/lib/db.js 127-163). With a client already on
the execOpts, the function runs directly (nested transactions collapse onto
the outer one). Otherwise: connect, build `trExecOpts` as a clone of the
execOpts carrying the new client, issue `BEGIN` (releasing and rethrowing if
it fails); then run `f`; on success restore `op` and issue `COMMIT`,
returning `f`'s result; on failure issue `ROLLBACK` and rethrow the original
error (a failing `ROLLBACK`'s own error propagates instead); in a `finally`,
release the connection. The supplied function is typed as a function, so the
`ARGUMENTS_INVALID` guard for non-functions has no counterpart here. -/
def transact {α : Type} (driver : Driver) (build : SqlBuilder)
    (f : ExecOpts → Cnt → Except DbErr α × Cnt × List Ev)
    (execOpts : Option ExecOpts) (cnt : Cnt) :
    Except DbErr α × Cnt × List Ev :=
  if (ctxClient execOpts).isSome then
    f (execOpts.getD {}) cnt
  else
    let cid := cnt.nextClient
    let cnt1 : Cnt := ⟨cid + 1, cnt.clock⟩
    let trOpts : ExecOpts := { execOpts.getD {} with client := some cid }
    let initialOp := trOpts.op
    let (bres, cnt2, evsB) := exec driver build (.str "BEGIN") (.opts trOpts) none cnt1
    match bres with
    | .error e => (.error e, cnt2, Ev.connect cid :: (evsB ++ [Ev.release cid]))
    | .ok _ =>
        let (fres, cnt3, evsF) := f trOpts cnt2
        match fres with
        | .ok v =>
            let trOpts2 : ExecOpts := { trOpts with op := initialOp }
            let (cres, cnt4, evsC) := exec driver build (.str "COMMIT") (.opts trOpts2) none cnt3
            match cres with
            | .ok _ => (.ok v, cnt4, Ev.connect cid :: (evsB ++ evsF ++ evsC ++ [Ev.release cid]))
            | .error ce =>
                let (rres, cnt5, evsR) :=
                  exec driver build (.str "ROLLBACK") (.opts trOpts2) none cnt4
                let thrown := match rres with
                  | .ok _ => ce
                  | .error re => re
                (.error thrown, cnt5,
                  Ev.connect cid :: (evsB ++ evsF ++ evsC ++ evsR ++ [Ev.release cid]))
        | .error fe =>
            let (rres, cnt4, evsR) := exec driver build (.str "ROLLBACK") (.opts trOpts) none cnt3
            let thrown := match rres with
              | .ok _ => fe
              | .error re => re
            (.error thrown, cnt4, Ev.connect cid :: (evsB ++ evsF ++ evsR ++ [Ev.release cid]))

/-- Embeds line 138 of src/lib/db.js with object identity made explicit:
`const trExecOpts = Object.assign({}, execOpts, {client: await this.pool.connect()})`.
The heap is a list of ctx objects addressed by index; `ctxRef` is the
caller's ctx cell (absent when no execOpts was supplied) and `cid` the fresh
connection. `Object.assign` returns its first argument — the fresh object
literal `{}` — after copying the execOpts fields and the client binding onto
it; the supplied execOpts object is only read, so the result is a newly
allocated cell and no existing cell changes. -/
def trExecOptsAssign (heap : List ExecOpts) (ctxRef : Option Nat) (cid : Nat) :
    List ExecOpts × Nat :=
  let base := match ctxRef with
    | some r => heap.getD r {}
    | none => {}
  (heap ++ [{ base with client := some cid }], heap.length)

/-- The trExecOpts object `transact` hands to `BEGIN`/`f`: a clone of the
supplied execOpts with the fresh client attached. -/
def trOptsOf (execOpts : Option ExecOpts) (cid : Nat) : ExecOpts :=
  { execOpts.getD {} with client := some cid }

end Db

namespace ModelJs

/-- A model instance as its property bag; a missing key is an `undefined`
property. -/
abbrev Inst := List (String × JsVal)

/-- Reading `instance[property]`: `none` models `undefined`. -/
def getProp (i : Inst) (k : String) : Option JsVal :=
  ((i.find? (fun kv => kv.1 == k)).map (·.2))

/-- In-place property assignment on an instance. -/
def setProp : Inst → String → JsVal → Inst
  | [], k, v => [(k, v)]
  | (k', v') :: t, k, v => if k' == k then (k', v) :: t else (k', v') :: setProp t k v

/-- An extender as the source registers it: an async function that mutates
the instances handed to it in place. The returned list holds the same
instances, in the same order, after the mutation. -/
abbrev Ext := List Inst → List Inst

/-- The static state of a model class that `extend` reads: its `name` and its
`extenders` table (`none` when the class never had extenders assigned — JS
`undefined`). -/
structure ModelCls where
  name : String
  extenders : Option (List (String × Ext))

/-- Error codes `Model.extend` can reject with, plus the TypeError raised by
indexing an undefined `extenders` table. -/
inductive ExtendErr where
  | propertiesInvalid
  | extenderMissing (modelName property : String)
  | extendNotImplemented (ctorName : String)
  | typeError
deriving DecidableEq, Repr

/-- JS `chain.split('.')` over the characters; `cur` is the current segment,
reversed. Always returns at least one segment. -/
def splitDotGo (cur : List Char) : List Char → List (List Char)
  | [] => [cur.reverse]
  | c :: cs => if c = '.' then cur.reverse :: splitDotGo [] cs else splitDotGo (c :: cur) cs

/-- JS `chain.split('.')`. -/
def splitDot (s : String) : List String := (splitDotGo [] s.toList).map List.asString

/-- The `properties` argument of `Model.extend` as JS receives it: a string,
an array of dotted paths, absent, or some other value (with its
truthiness). -/
inductive PropsArg where
  | strVal (s : String)
  | arrVal (l : List String)
  | undefined
  | other (truthy : Bool)

/-- JS truthiness of the `properties` argument (the empty string is falsy;
every array is truthy). -/
def propsTruthy : PropsArg → Bool
  | .strVal s => !s.isEmpty
  | .arrVal _ => true
  | .undefined => false
  | .other t => t

/-- `Array.isArray(properties)`. -/
def propsIsArray : PropsArg → Bool
  | .arrVal _ => true
  | _ => false

/-- `properties.length` for the shapes that reach the length check. -/
def propsLen : PropsArg → Nat
  | .arrVal l => l.length
  | .strVal s => s.length
  | _ => 0

/-- The chains of an array-shaped `properties`. -/
def propsList : PropsArg → List String
  | .arrVal l => l
  | _ => []

/-- Looks up `this.extenders[property]`; `if (!extender)` checks presence. -/
def lookupExt (l : List (String × Ext)) (k : String) : Option Ext :=
  ((l.find? (fun kv => kv.1 == k)).map (·.2))

/-- An instance whose `property` is still `undefined`. -/
def undefinedAt (property : String) (i : Inst) : Bool := (getProp i property).isNone

/-- Reassembles the full instance list after an extender mutated the filtered
sub-list in place: positions satisfying `p` take the next mutated instance,
the others keep theirs. This realizes the JS reference semantics of
`instances.filter(...)` followed by in-place mutation of the filtered
references. -/
def spliceBack (p : Inst → Bool) : List Inst → List Inst → List Inst
  | [], _ => []
  | i :: is, repl =>
      if p i then
        match repl with
        | r :: rs => r :: spliceBack p is rs
        | [] => i :: spliceBack p is []
      else i :: spliceBack p is repl

/-- One level of `.flat()`: an array value contributes its elements, any
other value itself. -/
def flatten1 : JsVal → List JsVal
  | .arr xs => xs.toList
  | v => [v]

/-- `const instancesToExtend = instances.filter(i => typeof i[property] === 'undefined')`
(src/lib/model.js 880). -/
def toExtendOf (property : String) (insts : List Inst) : List Inst :=
  insts.filter (undefinedAt property)

/-- The instances after the conditional extender invocation
(src/lib/model.js 882-884): the extender runs on — and mutates in place —
the filtered sub-list, and only when that sub-list is non-empty. -/
def afterExt (property : String) (ext : Ext) (insts : List Inst) : List Inst :=
  if (toExtendOf property insts).length != 0 then
    spliceBack (undefinedAt property) insts (ext (toExtendOf property insts))
  else insts

/-- The argument lists the conditional invocation passes to the extender:
one call on the filtered sub-list when it is non-empty, none otherwise. -/
def callsOf (property : String) (insts : List Inst) : List (List Inst) :=
  if (toExtendOf property insts).length != 0 then [toExtendOf property insts] else []

/-- `instances.filter(i => i[property]).map(i => i[property]).flat()`
(src/lib/model.js 890-893): the truthy extended values, one level
flattened. -/
def deepValues (property : String) (insts : List Inst) : List JsVal :=
  ((insts.filterMap (fun i => getProp i property)).filter jsTruthy).flatMap flatten1

/-- Embeds the `for (const chain of properties)` loop of `Model.extend`
(src/lib/model.js 868-911). For each chain: split on dots, look up the
extender for the first segment (TypeError when the class has no `extenders`
table, `EXTENDER_MISSING` when the table lacks the property); invoke the
extender per `afterExt`; with remaining segments, the source collects the
truthy extended values (one level flattened) and dispatches on their
constructors — in this embedding property values are plain values whose
constructors expose no `extend` function, so any collected value trips the
`EXTEND_NOT_IMPLEMENTED` guard exactly as the source does for non-model
values. Besides the updated instances, the embedding returns the argument
lists of the extender invocations it performed, so that theorems can speak
about which instances an extender was invoked on. -/
def extendLoop (M : ModelCls) : List String → List Inst →
    Except ExtendErr (List Inst × List (List Inst))
  | [], insts => .ok (insts, [])
  | chain :: rest, insts =>
      match M.extenders with
      | none => .error .typeError
      | some exts =>
          match lookupExt exts ((splitDot chain).headD "") with
          | none => .error (.extenderMissing M.name ((splitDot chain).headD ""))
          | some ext =>
              if (splitDot chain).tail.isEmpty then
                match extendLoop M rest (afterExt ((splitDot chain).headD "") ext insts) with
                | .error e => .error e
                | .ok (insts2, calls2) =>
                    .ok (insts2, callsOf ((splitDot chain).headD "") insts ++ calls2)
              else
                if (deepValues ((splitDot chain).headD "")
                    (afterExt ((splitDot chain).headD "") ext insts)).isEmpty then
                  match extendLoop M rest (afterExt ((splitDot chain).headD "") ext insts) with
                  | .error e => .error e
                  | .ok (insts2, calls2) =>
                      .ok (insts2, callsOf ((splitDot chain).headD "") insts ++ calls2)
                else .error (.extendNotImplemented "Object")

/-- Embeds `Model.extend` (src/lib/model.js 853-914): rejects with
`PROPERTIES_INVALID` when `properties` is truthy but not an array; returns
the instances untouched when the instance list is empty, `properties` is
falsy, or `properties.length` is zero; otherwise runs the chain loop. -/
def extend (M : ModelCls) (props : PropsArg) (insts : List Inst) :
    Except ExtendErr (List Inst × List (List Inst)) :=
  if propsTruthy props && !propsIsArray props then .error .propertiesInvalid
  else if insts.length == 0 || !propsTruthy props || propsLen props == 0 then .ok (insts, [])
  else extendLoop M (propsList props) insts

/-- JS `a || b`. -/
def jsOr (a b : JsVal) : JsVal := if jsTruthy a then a else b

/-- JS `+` restricted to numbers; non-numeric addition (string concatenation,
coercions) is not reached by the verified scenarios. -/
def jsAdd : JsVal → JsVal → JsVal
  | .num a, .num b => .num (a + b)
  | _, _ => .undefined

/-- The repository's counter-incrementing test extender (test/index.js,
`incrementedCounter`):
`instances.forEach(instance => instance[p] = (instance[p] || 0) + 1)`. -/
def incrementedCounterExt (property : String) : Ext :=
  fun insts => insts.map (fun i =>
    setProp i property (jsAdd (jsOr ((getProp i property).getD .undefined) (.num 0)) (.num 1)))

/-- The error `Model#save` can throw from its mode check. -/
inductive SaveErr where
  | modeInvalid (mode : String)
deriving DecidableEq, Repr

/-- `typeof arguments[0] === 'string'`. -/
def isStrVal : JsVal → Bool
  | .str _ => true
  | _ => false

/-- Embeds the argument-resolution prefix of `Model#save`
(src/lib/model.js 966-982): a string first argument is the mode and the
second argument the ctx; any other first argument leaves the mode at its
`'upsert'` default and is itself taken as the ctx; a mode outside
insert/update/upsert throws `MODE_INVALID`; a falsy ctx is replaced by `{}`.
No later statement of `save` throws `MODE_INVALID`, so this prefix decides
that error completely. -/
def saveModeCtx (arg0 arg1 : JsVal) : Except SaveErr (String × JsVal) :=
  let mode := match arg0 with
    | .str s => s
    | _ => "upsert"
  let ctx0 := match arg0 with
    | .str _ => arg1
    | a => a
  if mode == "insert" || mode == "update" || mode == "upsert" then
    .ok (mode, if jsTruthy ctx0 then ctx0 else .obj .nil)
  else .error (.modeInvalid mode)

end ModelJs

namespace LinkModels

/-- A foreign-key reference row as `getReferences` returns it
(src/lib/link-models.js 21-36). -/
structure RefRow where
  table_schema : String
  table_name : String
  column_name : String
  foreign_table_name : String
deriving DecidableEq, Repr

/-- Appends `col` under `key` in the insertion-ordered table/columns mapping
(`referencingTables` in the source). -/
def addRefCol (acc : List (String × List String)) (key col : String) :
    List (String × List String) :=
  match acc with
  | [] => [(key, [col])]
  | (k, cols) :: t =>
      if k == key then (k, cols ++ [col]) :: t else (k, cols) :: addRefCol t key col

/-- Embeds src/lib/link-models.js 129-143: the references whose
`foreign_table_name` is this model's table, grouped as
`` `${schema}.${table}` `` keys to column lists. -/
def referencingTablesFor (references : List RefRow) (table : String) :
    List (String × List String) :=
  (references.filter (fun r => r.foreign_table_name == table)).foldl
    (fun acc r => addRefCol acc (r.table_schema ++ "." ++ r.table_name) r.column_name) []

/-- lodash `.uniq()`: first occurrences, SameValueZero as `jsEq`. -/
def uniqFirst (seen : List JsVal) : List JsVal → List JsVal
  | [] => []
  | v :: vs =>
      if seen.any (fun s => jsEq s v) then uniqFirst seen vs
      else v :: uniqFirst (seen ++ [v]) vs

/-- `_.chain(instances).map('id').uniq().filter(_.identity).value()`. -/
def collectIds (instances : List ModelJs.Inst) : List JsVal :=
  (uniqFirst [] (instances.map (fun i => (ModelJs.getProp i "id").getD .undefined))).filter jsTruthy

/-- The per-table, per-column `SELECT ... = ANY($1)` pieces the source pushes
onto `queries` (src/lib/link-models.js 158-164). -/
def refQueries (refTables : List (String × List String)) : List String :=
  refTables.flatMap (fun tc => tc.2.map (fun col =>
    "SELECT " ++ col ++ " AS referenced_id FROM " ++ tc.1 ++ " WHERE " ++ col ++ " = ANY($1)"))

/-- Reading `row.referenced_id` from a result row. -/
def rowReferencedId (row : JsVal) : JsVal :=
  match row with
  | .obj o => (((o.entries).find? (fun kv => kv.1 == "referenced_id")).map (·.2)).getD .undefined
  | _ => .undefined

/-- Embeds the `isReferenced` extender `addIsReferencedExtender` registers
(src/lib/link-models.js 145-170), with `model.db.exec` abstracted by
`dbExec` and the statements issued recorded alongside the result. Steps, as
in the source: return immediately on an empty instance list; default every
instance's `isReferenced` to `false`; collect the distinct truthy ids (from
the same instance objects); return if none; build one `SELECT` per
referencing table/column pair, join them with `' UNION '` — with no guard
against an empty `relatedReferences`, so with zero pairs the join is the
empty statement and `db.exec` is still awaited — and flip `isReferenced` on
the instances whose id the result mentions. -/
def isReferencedExtender (refTables : List (String × List String))
    (dbExec : String → List JsVal → Except Db.DbErr Db.QueryRes)
    (instances : List ModelJs.Inst) :
    Except Db.DbErr (List ModelJs.Inst) × List (String × List JsVal) :=
  if instances.isEmpty then (.ok instances, [])
  else
    let insts1 := instances.map (fun i => ModelJs.setProp i "isReferenced" (.bool false))
    let ids := collectIds instances
    if ids.isEmpty then (.ok insts1, [])
    else
      let statement := String.intercalate " UNION " (refQueries refTables)
      let params := [JsVal.arr (JsArr.ofList ids)]
      match dbExec statement params with
      | .error e => (.error e, [(statement, params)])
      | .ok r =>
          let referencedIds := r.rows.map rowReferencedId
          let insts2 := insts1.map (fun i => ModelJs.setProp i "isReferenced"
            (.bool (referencedIds.any (fun rid =>
              jsEq rid ((ModelJs.getProp i "id").getD .undefined)))))
          (.ok insts2, [(statement, params)])

end LinkModels

namespace Db

/-- The event is an `execFinish` emission. -/
def isFinishEv : Ev → Bool
  | .emitFinish _ => true
  | _ => false

/-- The event is a release of connection `cid`. -/
def isReleaseOf (cid : Nat) : Ev → Bool
  | .release c => c == cid
  | _ => false

/-- The event is an acquisition of connection `cid`. -/
def isConnectOf (cid : Nat) : Ev → Bool
  | .connect c => c == cid
  | _ => false

end Db

/-! ## Basic lemmas about the JS value model -/

mutual

theorem jsEq_refl : ∀ v : JsVal, jsEq v v = true
  | .null => rfl
  | .undefined => rfl
  | .bool b => by simp [jsEq]
  | .num n => by simp [jsEq]
  | .str s => by simp [jsEq]
  | .arr a => by simp only [jsEq]; exact jsEqArr_refl a
  | .obj o => by simp only [jsEq]; exact jsEqObj_refl o

theorem jsEqArr_refl : ∀ a : JsArr, jsEqArr a a = true
  | .nil => rfl
  | .cons x xs => by
      simp only [jsEqArr, Bool.and_eq_true]
      exact ⟨jsEq_refl x, jsEqArr_refl xs⟩

theorem jsEqObj_refl : ∀ o : JsObj, jsEqObj o o = true
  | .nil => rfl
  | .cons k v t => by
      simp only [jsEqObj, Bool.and_eq_true]
      exact ⟨⟨by simp, jsEq_refl v⟩, jsEqObj_refl t⟩

end

theorem jsVal_ne_of_jsEq_false {a b : JsVal} (h : jsEq a b = false) : a ≠ b := by
  intro he
  subst he
  rw [jsEq_refl] at h
  cases h

/-! ## C6 and C7: the key-convention converter -/

/-- C6 counterexample: the claim includes the empty array among the inputs
`toRowKeys` returns by reference (`toRowKeys(x) === x`), but an array input —
empty included — takes the `target.map(toSnakeCaseDeep)` path, and
`Array.prototype.map` always allocates a fresh array, so `===` fails for
`[]`. -/
theorem toSnakeCaseDeep_empty_array_fresh :
    ConvertKeys.returnsSameRef (JsVal.arr .nil) = false ∧
    ConvertKeys.toSnakeCaseDeep (JsVal.arr .nil) = JsVal.arr .nil :=
  ⟨rfl, rfl⟩

/-- C6 (corrected): for every value that is not a non-empty object and not an
array, `toSnakeCaseDeep` executes `return target` — the same reference, and
in particular the same value; the empty array is returned as a fresh but
structurally equal array; and `toCamelCase` never throws, on any input. -/
theorem toSnakeCaseDeep_passthrough_non_objects :
    (∀ x : JsVal, ConvertKeys.isArrVal x = false → ConvertKeys.isNonEmptyObj x = false →
      ConvertKeys.returnsSameRef x = true ∧ ConvertKeys.toSnakeCaseDeep x = x) ∧
    (ConvertKeys.toSnakeCaseDeep (JsVal.arr .nil) = JsVal.arr .nil ∧
      ConvertKeys.returnsSameRef (JsVal.arr .nil) = false) ∧
    (∀ x : JsVal, (ConvertKeys.toCamelCase x).isOk = true) := by
  refine ⟨?_, ⟨rfl, rfl⟩, fun _ => rfl⟩
  intro x hx hobj
  cases x with
  | obj fields =>
      cases fields with
      | nil => exact ⟨rfl, rfl⟩
      | cons k v t => simp [ConvertKeys.isNonEmptyObj] at hobj
  | arr xs => simp [ConvertKeys.isArrVal] at hx
  | null => exact ⟨rfl, rfl⟩
  | undefined => exact ⟨rfl, rfl⟩
  | bool b => exact ⟨rfl, rfl⟩
  | num n => exact ⟨rfl, rfl⟩
  | str s => exact ⟨rfl, rfl⟩

/-- C7 counterexample: inside a `$or` subtree the conversion still recurses —
the key `fooBar` below the marker key becomes `foo_bar` — so the subtree
under a marker key is not passed through unchanged, contrary to the claim. -/
theorem toSnakeCaseDeep_marker_subtree_converted :
    ConvertKeys.toSnakeCaseDeep
        (JsVal.obj (.cons "$or" (.arr (.cons (.obj (.cons "fooBar" (.num 1) .nil)) .nil)) .nil)) =
      JsVal.obj (.cons "$or" (.arr (.cons (.obj (.cons "foo_bar" (.num 1) .nil)) .nil)) .nil) ∧
    ConvertKeys.toSnakeCaseDeep
        (JsVal.obj (.cons "$or" (.arr (.cons (.obj (.cons "fooBar" (.num 1) .nil)) .nil)) .nil)) ≠
      JsVal.obj (.cons "$or" (.arr (.cons (.obj (.cons "fooBar" (.num 1) .nil)) .nil)) .nil) :=
  ⟨rfl, jsVal_ne_of_jsEq_false (by decide)⟩

theorem toSnakeCaseDeepObj_marker_mem : ∀ (o : JsObj) (k : String) (v : JsVal),
    (k, v) ∈ o.entries → startsWithDollar k = true →
    (k, ConvertKeys.toSnakeCaseDeep v) ∈ (ConvertKeys.toSnakeCaseDeepObj o).entries
  | .nil, k, v, hm, _ => by simp [JsObj.entries] at hm
  | .cons k' v' t, k, v, hm, hd => by
      simp only [JsObj.entries, List.mem_cons, Prod.mk.injEq] at hm
      rcases hm with ⟨hk, hv⟩ | hm
      · subst hk
        subst hv
        simp [ConvertKeys.toSnakeCaseDeepObj, JsObj.entries, hd]
      · simp only [ConvertKeys.toSnakeCaseDeepObj, JsObj.entries, List.mem_cons]
        exact Or.inr (toSnakeCaseDeepObj_marker_mem t k v hm hd)

/-- C7 (corrected): at every object node — hence at every nesting depth, the
conversion being structurally recursive — a key starting with the reserved
marker `'$'` survives unrenamed; but it is paired with the recursive
conversion of its value, not with the value passed through unchanged. -/
theorem toSnakeCaseDeep_marker_keys_unrenamed (fields : JsObj) (k : String) (v : JsVal)
    (hm : (k, v) ∈ fields.entries) (hd : startsWithDollar k = true) :
    (k, ConvertKeys.toSnakeCaseDeep v) ∈
      ConvertKeys.objFields (ConvertKeys.toSnakeCaseDeep (JsVal.obj fields)) := by
  cases fields with
  | nil => simp [JsObj.entries] at hm
  | cons k' v' t =>
      simp only [ConvertKeys.toSnakeCaseDeep, ConvertKeys.objFields]
      exact toSnakeCaseDeepObj_marker_mem (.cons k' v' t) k v hm hd

/-- Witness for C7 at a concrete input: the marker key `$in` survives the
conversion with its value converted. -/
theorem toSnakeCaseDeep_marker_keys_unrenamed_witness :
    ("$in", ConvertKeys.toSnakeCaseDeep (JsVal.num 2)) ∈
      ConvertKeys.objFields
        (ConvertKeys.toSnakeCaseDeep (JsVal.obj (.cons "$in" (.num 2) .nil))) :=
  toSnakeCaseDeep_marker_keys_unrenamed (.cons "$in" (.num 2) .nil) "$in" (.num 2)
    (by simp [JsObj.entries]) (by decide)

/-! ## C5: the isReferenced extender with zero incoming references -/

/-- C5 (code_bug): for a model with no incoming foreign-key references
(`relatedReferences` empty, so zero referencing table/column pairs), the
extender invoked on one instance with the truthy id `1` does default
`isReferenced` to `false` — but it does not issue zero queries: lacking any
guard on the pair list it still awaits `db.exec` once, with the `' UNION '`
join of zero `SELECT`s — the empty statement — and the `$1` ids parameter,
which PostgreSQL rejects (parameters supplied to an empty query). The spec
requires that a UNION of zero queries is never executed. -/
theorem isReferencedExtender_zero_refs_executes_empty_union :
    LinkModels.isReferencedExtender [] (fun _ _ => .ok ⟨[]⟩) [[("id", JsVal.num 1)]] =
      (.ok [[("id", JsVal.num 1), ("isReferenced", JsVal.bool false)]],
       [("", [JsVal.arr (.cons (.num 1) .nil)])]) := rfl

/-! ## C9: convertSpec's ARGUMENTS_INVALID check and null -/

/-- C9 (confirmed): `convertSpec` rejects with `ARGUMENTS_INVALID` exactly
when `typeof spec !== 'object'`; `null` passes that check (`typeof null` is
`'object'`) and fails instead with a TypeError at the subtree-conversion
assignments on the clone; and `Db.exec` with `null` as its first argument
takes the spec overload and propagates that TypeError — never
`ARGUMENTS_INVALID` — before any event is emitted. -/
theorem convertSpec_arguments_invalid_iff_null_passes :
    (∀ (build : Db.SqlBuilder) (spec : JsVal),
      Db.convertSpec build spec = .error .argumentsInvalid ↔
        Db.typeofIsObject spec = false) ∧
    (∀ build : Db.SqlBuilder, Db.convertSpec build .null = .error .typeError) ∧
    (∀ (driver : Db.Driver) (build : Db.SqlBuilder) (arg : Db.ValuesOrOpts)
        (eo : Option Db.ExecOpts) (cnt : Db.Cnt),
      Db.exec driver build .null arg eo cnt = (.error .typeError, cnt, [])) := by
  refine ⟨?_, ?_, ?_⟩
  · intro build spec
    cases spec <;>
      simp [Db.convertSpec, Db.assignConverted, Db.getPropJs, Db.setPropJs,
        Db.typeofIsObject, bind, Except.bind, Functor.map, Except.map,
        throw, throwThe, MonadExceptOf.throw, pure, Except.pure]
  · intro build
    simp [Db.convertSpec, Db.assignConverted, Db.getPropJs, Db.typeofIsObject,
      bind, Except.bind, Functor.map, Except.map,
      throw, throwThe, MonadExceptOf.throw, pure, Except.pure]
  · intro driver build arg eo cnt
    simp [Db.exec, Db.convertSpec, Db.assignConverted, Db.getPropJs, Db.typeofIsObject,
      bind, Except.bind, Functor.map, Except.map,
      throw, throwThe, MonadExceptOf.throw, pure, Except.pure]

/-! ## C10: the save mode check -/

/-- C10 (confirmed): the argument-resolution prefix of `Model#save` throws
`MODE_INVALID` exactly when the first argument is a string outside
insert/update/upsert; for any non-string first argument the mode silently
stays at its `'upsert'` default and that argument is taken as the execution
context (a falsy one replaced by `{}`), so no `MODE_INVALID` check ever
applies to it. -/
theorem saveModeCtx_mode_invalid_iff :
    ∀ arg0 arg1 : JsVal,
      ((∃ e, ModelJs.saveModeCtx arg0 arg1 = .error e) ↔
        (∃ s, arg0 = .str s ∧ s ≠ "insert" ∧ s ≠ "update" ∧ s ≠ "upsert")) ∧
      (ModelJs.isStrVal arg0 = false →
        ModelJs.saveModeCtx arg0 arg1 =
          .ok ("upsert", if jsTruthy arg0 then arg0 else .obj .nil)) := by
  intro arg0 arg1
  constructor
  · cases arg0 <;> simp [ModelJs.saveModeCtx]
    case str s =>
      by_cases h : s = "insert" ∨ s = "update" ∨ s = "upsert"
      · rcases h with h | h | h <;> subst h <;> simp
      · push_neg at h
        simp [h.1, h.2.1, h.2.2]
  · intro h
    cases arg0 <;> simp_all [ModelJs.isStrVal, ModelJs.saveModeCtx]

/-! ## C4: the shape check on the properties argument of extend -/

/-- C4 counterexample: the claim says `extend` accepts `properties` given as
a single string, but the source (and its test "should only accept arrays for
the list of properties") rejects a non-empty string with
`PROPERTIES_INVALID` before anything else is examined. -/
theorem extend_rejects_string_properties :
    ModelJs.extend ⟨"Fedora", none⟩ (.strVal "randomNumber") [] =
      .error .propertiesInvalid := rfl

theorem extendLoop_ne_propsInvalid (M : ModelJs.ModelCls) :
    ∀ (chains : List String) (insts : List ModelJs.Inst),
      ModelJs.extendLoop M chains insts ≠ .error .propertiesInvalid
  | [], insts => by simp [ModelJs.extendLoop]
  | chain :: rest, insts => by
      simp only [ModelJs.extendLoop]
      split
      · simp
      · split
        · simp
        · split
          · split
            · rename_i e heq
              intro hcontra
              injection hcontra with h1
              exact extendLoop_ne_propsInvalid M rest _ (h1 ▸ heq)
            · simp
          · split
            · split
              · rename_i e heq
                intro hcontra
                injection hcontra with h1
                exact extendLoop_ne_propsInvalid M rest _ (h1 ▸ heq)
              · simp
            · simp

/-- C4 (corrected): `Model.extend` rejects with `PROPERTIES_INVALID` exactly
when `properties` is truthy and not an array — so a non-empty string, which
the claim says is accepted, is rejected too; only an array of dotted paths
(or a falsy, skipped value) passes the shape check. -/
theorem extend_properties_invalid_iff :
    ∀ (M : ModelJs.ModelCls) (props : ModelJs.PropsArg) (insts : List ModelJs.Inst),
      ModelJs.extend M props insts = .error .propertiesInvalid ↔
        (ModelJs.propsTruthy props = true ∧ ModelJs.propsIsArray props = false) := by
  intro M props insts
  unfold ModelJs.extend
  split
  · rename_i h
    simp only [Bool.and_eq_true, Bool.not_eq_true'] at h
    simp [h.1, h.2]
  · rename_i h
    simp only [Bool.and_eq_true, Bool.not_eq_true'] at h
    split
    · constructor
      · intro hcontra
        cases hcontra
      · intro ⟨ht, ha⟩
        exact absurd ⟨ht, ha⟩ h
    · constructor
      · intro hcontra
        exact absurd hcontra (extendLoop_ne_propsInvalid M (ModelJs.propsList props) insts)
      · intro ⟨ht, ha⟩
        exact absurd ⟨ht, ha⟩ h

/-! ## C2: the completion event of exec -/

/-- C2 (confirmed): every call that reaches statement execution — every run
of the resolved body `execRun` — appends exactly one `execFinish` emission to
the event list, on the success and on the failure path alike; the emitted
record carries the executed statement, the values, the execution context and
the two timestamps (`finishedAt` one clock tick after `startedAt`), and
exactly one of `result`/`err`, matching the call's outcome. -/
theorem execRun_emits_one_finish :
    ∀ (driver : Db.Driver) (spec : Option JsVal) (statement : String)
      (values : List JsVal) (eo : Db.ExecOpts) (cnt : Db.Cnt),
      ∃ data : Db.FinishRec,
        (Db.execRun driver spec statement values eo cnt).2.2.filter Db.isFinishEv =
            [Db.Ev.emitFinish data] ∧
        data.statement = statement ∧
        data.values = values ∧
        data.execOpts = eo ∧
        data.startedAt + 1 = data.finishedAt ∧
        ((∃ q, data.result = some q ∧ data.err = none ∧
            (Db.execRun driver spec statement values eo cnt).1 = .ok q) ∨
          (∃ e, data.err = some e ∧ data.result = none ∧
            (Db.execRun driver spec statement values eo cnt).1 = .error e)) := by
  intro driver spec statement values eo cnt
  cases hc : eo.client with
  | none =>
      cases hq : driver cnt.nextClient statement values with
      | ok q =>
          exact ⟨⟨spec, statement, values, eo, cnt.clock, cnt.clock + 1,
              cnt.clock + 1 - cnt.clock, some q, none⟩,
            by simp [Db.execRun, hc, hq, Db.isFinishEv, List.filter, Except.toOption], rfl, rfl, rfl, rfl,
            Or.inl ⟨q, rfl, rfl, by simp [Db.execRun, hc, hq]⟩⟩
      | error e =>
          exact ⟨⟨spec, statement, values, eo, cnt.clock, cnt.clock + 1,
              cnt.clock + 1 - cnt.clock, none, some e⟩,
            by simp [Db.execRun, hc, hq, Db.isFinishEv, List.filter, Except.toOption], rfl, rfl,
            rfl, rfl, Or.inr ⟨e, rfl, rfl, by simp [Db.execRun, hc, hq]⟩⟩
  | some c =>
      cases hq : driver c statement values with
      | ok q =>
          exact ⟨⟨spec, statement, values, eo, cnt.clock, cnt.clock + 1,
              cnt.clock + 1 - cnt.clock, some q, none⟩,
            by simp [Db.execRun, hc, hq, Db.isFinishEv, List.filter, Except.toOption], rfl, rfl, rfl, rfl,
            Or.inl ⟨q, rfl, rfl, by simp [Db.execRun, hc, hq]⟩⟩
      | error e =>
          exact ⟨⟨spec, statement, values, eo, cnt.clock, cnt.clock + 1,
              cnt.clock + 1 - cnt.clock, none, some e⟩,
            by simp [Db.execRun, hc, hq, Db.isFinishEv, List.filter, Except.toOption], rfl, rfl,
            rfl, rfl, Or.inr ⟨e, rfl, rfl, by simp [Db.execRun, hc, hq]⟩⟩

/-! ## C3: extend invokes extenders only on undefined properties -/

theorem spliceBack_filter_map (p : ModelJs.Inst → Bool) (g : ModelJs.Inst → ModelJs.Inst) :
    ∀ insts : List ModelJs.Inst,
      ModelJs.spliceBack p insts ((insts.filter p).map g) =
        insts.map (fun i => if p i then g i else i)
  | [] => rfl
  | i :: is => by
      by_cases hp : p i
      · simp [List.filter_cons, hp, ModelJs.spliceBack, spliceBack_filter_map p g is]
      · simp [List.filter_cons, hp, ModelJs.spliceBack, spliceBack_filter_map p g is]

theorem getProp_setProp_self : ∀ (i : ModelJs.Inst) (k : String) (v : JsVal),
    ModelJs.getProp (ModelJs.setProp i k v) k = some v
  | [], k, v => by simp [ModelJs.setProp, ModelJs.getProp]
  | (k', v') :: t, k, v => by
      simp only [ModelJs.setProp]
      split
      · rename_i h
        simp [ModelJs.getProp, List.find?, h]
      · rename_i h
        simp only [ModelJs.getProp, List.find?, h]
        exact getProp_setProp_self t k v

theorem afterExt_incCounter (p : String) (insts : List ModelJs.Inst) :
    ModelJs.afterExt p (ModelJs.incrementedCounterExt p) insts =
      insts.map (fun i =>
        if ModelJs.undefinedAt p i then ModelJs.setProp i p (.num 1) else i) := by
  unfold ModelJs.afterExt ModelJs.toExtendOf
  split
  · rw [show ModelJs.incrementedCounterExt p (insts.filter (ModelJs.undefinedAt p)) =
        (insts.filter (ModelJs.undefinedAt p)).map (fun i =>
          ModelJs.setProp i p
            (ModelJs.jsAdd (ModelJs.jsOr ((ModelJs.getProp i p).getD .undefined) (.num 0))
              (.num 1))) from rfl]
    rw [spliceBack_filter_map]
    apply List.map_congr_left
    intro i _
    by_cases hu : ModelJs.undefinedAt p i
    · have hget : ModelJs.getProp i p = none := by
        simpa [ModelJs.undefinedAt, Option.isNone_iff_eq_none] using hu
      simp [hu, hget, ModelJs.jsOr, ModelJs.jsAdd, jsTruthy]
    · simp [hu]
  · rename_i h
    have hnil : insts.filter (ModelJs.undefinedAt p) = [] := by
      simp only [bne, Bool.not_eq_true] at h
      rcases List.eq_nil_or_concat (insts.filter (ModelJs.undefinedAt p)) with hn | ⟨l, a, hc⟩
      · exact hn
      · exfalso
        rw [hc] at h
        simp at h
    have hall : ∀ i ∈ insts, ¬ ModelJs.undefinedAt p i = true :=
      List.filter_eq_nil_iff.mp hnil
    have : insts.map (fun i =>
        if ModelJs.undefinedAt p i then ModelJs.setProp i p (.num 1) else i) = insts.map id := by
      apply List.map_congr_left
      intro i hi
      simp [hall i hi]
    rw [this, List.map_id]

theorem filter_undefined_after_inc (p : String) (insts : List ModelJs.Inst) :
    (insts.map (fun i =>
      if ModelJs.undefinedAt p i then ModelJs.setProp i p (.num 1) else i)).filter
        (ModelJs.undefinedAt p) = [] := by
  rw [List.filter_eq_nil_iff]
  intro i hi
  rcases List.mem_map.mp hi with ⟨j, _, rfl⟩
  by_cases hu : ModelJs.undefinedAt p j
  · rw [if_pos hu]
    simp [ModelJs.undefinedAt, getProp_setProp_self]
  · rw [if_neg hu]
    exact hu

/-- C3 (confirmed): for every instance list and a registered
counter-incrementing extender under a dot-free property name, `Model.extend`
invokes the extender exactly on the instances whose property is still
`undefined` (the recorded calls all satisfy it), every such instance ends
with the counter at `1`, and a second identical `extend` performs no
invocation at all and leaves the instances unchanged — the side effect runs
at most once per instance. -/
theorem extend_skips_defined_and_is_idempotent :
    ∀ (M : ModelJs.ModelCls) (exts : List (String × ModelJs.Ext)) (p : String)
      (insts : List ModelJs.Inst),
      ModelJs.splitDot p = [p] →
      M.extenders = some exts →
      ModelJs.lookupExt exts p = some (ModelJs.incrementedCounterExt p) →
      (ModelJs.extend M (.arrVal [p]) insts =
          .ok (insts.map (fun i =>
                if ModelJs.undefinedAt p i then ModelJs.setProp i p (.num 1) else i),
              ModelJs.callsOf p insts) ∧
        (∀ c ∈ ModelJs.callsOf p insts, ∀ i ∈ c, ModelJs.getProp i p = none) ∧
        ModelJs.extend M (.arrVal [p])
            (insts.map (fun i =>
              if ModelJs.undefinedAt p i then ModelJs.setProp i p (.num 1) else i)) =
          .ok (insts.map (fun i =>
                if ModelJs.undefinedAt p i then ModelJs.setProp i p (.num 1) else i), [])) := by
  intro M exts p insts hsplit hext hlook
  refine ⟨?_, ?_, ?_⟩
  · unfold ModelJs.extend
    simp only [ModelJs.propsTruthy, ModelJs.propsIsArray, Bool.not_true, Bool.and_false,
      Bool.false_eq_true, if_false, ModelJs.propsLen, ModelJs.propsList]
    cases insts with
    | nil => simp [ModelJs.callsOf, ModelJs.toExtendOf]
    | cons i0 is =>
        simp only [List.length_cons, List.length_nil]
        rw [if_neg (by simp)]
        simp only [ModelJs.extendLoop, hext, hsplit, List.headD_cons, hlook, List.tail_cons,
          List.isEmpty_nil, if_true]
        rw [afterExt_incCounter]
        simp
  · intro c hc i hi
    unfold ModelJs.callsOf at hc
    split at hc
    · simp only [List.mem_singleton] at hc
      subst hc
      unfold ModelJs.toExtendOf at hi
      have h2 := List.of_mem_filter hi
      simpa [ModelJs.undefinedAt, Option.isNone_iff_eq_none] using h2
    · simp at hc
  · unfold ModelJs.extend
    simp only [ModelJs.propsTruthy, ModelJs.propsIsArray, Bool.not_true, Bool.and_false,
      Bool.false_eq_true, if_false, ModelJs.propsLen, ModelJs.propsList]
    cases insts with
    | nil => simp
    | cons i0 is =>
        simp only [List.map_cons, List.length_cons, List.length_nil]
        rw [if_neg (by simp)]
        rw [show ((if ModelJs.undefinedAt p i0 then ModelJs.setProp i0 p (.num 1) else i0) ::
            is.map (fun i =>
              if ModelJs.undefinedAt p i then ModelJs.setProp i p (.num 1) else i)) =
          ((i0 :: is).map (fun i =>
            if ModelJs.undefinedAt p i then ModelJs.setProp i p (.num 1) else i)) from rfl]
        simp only [ModelJs.extendLoop, hext, hsplit, List.headD_cons, hlook, List.tail_cons,
          List.isEmpty_nil, if_true]
        have hflt := filter_undefined_after_inc p (i0 :: is)
        rw [show ModelJs.afterExt p (ModelJs.incrementedCounterExt p)
            ((i0 :: is).map (fun i =>
              if ModelJs.undefinedAt p i then ModelJs.setProp i p (.num 1) else i)) =
          ((i0 :: is).map (fun i =>
            if ModelJs.undefinedAt p i then ModelJs.setProp i p (.num 1) else i)) from by
            unfold ModelJs.afterExt ModelJs.toExtendOf
            rw [hflt]
            simp]
        rw [show ModelJs.callsOf p
            ((i0 :: is).map (fun i =>
              if ModelJs.undefinedAt p i then ModelJs.setProp i p (.num 1) else i)) = [] from by
            unfold ModelJs.callsOf ModelJs.toExtendOf
            rw [hflt]
            simp]
        simp

/-- Witness for C3: one instance with the property `x` undefined; the first
extend sets the counter to `1` with one invocation, the second performs no
invocation and changes nothing. -/
theorem extend_skips_defined_and_is_idempotent_witness :
    ModelJs.extend ⟨"Fedora", some [("x", ModelJs.incrementedCounterExt "x")]⟩
        (.arrVal ["x"]) [[]] =
      .ok ([[("x", JsVal.num 1)]], [[[]]]) ∧
    ModelJs.extend ⟨"Fedora", some [("x", ModelJs.incrementedCounterExt "x")]⟩
        (.arrVal ["x"]) [[("x", JsVal.num 1)]] =
      .ok ([[("x", JsVal.num 1)]], []) := by
  have h := extend_skips_defined_and_is_idempotent
    ⟨"Fedora", some [("x", ModelJs.incrementedCounterExt "x")]⟩
    [("x", ModelJs.incrementedCounterExt "x")] "x" [[]] rfl rfl rfl
  exact ⟨h.1, h.2.2⟩

/-! ## C8: transact and the caller's ctx object -/

/-- C8 counterexample: the claim says `transact` attaches the checked-out
connection by mutating the supplied ctx object in place as its `client` key.
In the source the assignment is `Object.assign({}, execOpts, {client})` —
after the embedded step the caller's ctx cell still has no client, and the
client sits on a newly allocated cell (index 1, not the caller's 0). -/
theorem transact_does_not_mutate_caller_ctx :
    ((Db.trExecOptsAssign [{}] (some 0) 7).1.getD 0 {}).client = none ∧
    (Db.trExecOptsAssign [{}] (some 0) 7).2 = 1 :=
  ⟨rfl, rfl⟩

/-- C8 (corrected): when `transact` begins a new transaction it attaches the
connection to a fresh shallow clone of the supplied ctx
(`Object.assign({}, execOpts, {client})`): the caller's ctx cell is only
read and keeps its value, the clone is a new cell (a different reference),
and it carries the caller's fields with `client` set to the fresh
connection. The clone — not the caller's ctx — is what the transaction
uses, and it is discarded when the call ends. -/
theorem transact_clones_ctx :
    ∀ (heap : List Db.ExecOpts) (r : Nat) (cid : Nat), r < heap.length →
      ((Db.trExecOptsAssign heap (some r) cid).1.getD r {} = heap.getD r {} ∧
        (Db.trExecOptsAssign heap (some r) cid).2 ≠ r ∧
        (Db.trExecOptsAssign heap (some r) cid).1.getD
            ((Db.trExecOptsAssign heap (some r) cid).2) {} =
          { heap.getD r {} with client := some cid }) := by
  intro heap r cid hr
  refine ⟨?_, ?_, ?_⟩
  · exact List.getD_append heap _ {} r hr
  · exact Nat.ne_of_gt hr
  · show (heap ++ [{ heap.getD r {} with client := some cid }]).getD heap.length {} = _
    rw [List.getD_eq_getElem _ _ (by simp)]
    rw [List.getElem_append_right (Nat.le_refl heap.length)]
    simp

/-- Witness for C8 at a concrete heap: one ctx cell, connection 7. -/
theorem transact_clones_ctx_witness :
    ((Db.trExecOptsAssign [{ op := some "find" }] (some 0) 7).1.getD 0 {} =
        { op := some "find" } ∧
      (Db.trExecOptsAssign [{ op := some "find" }] (some 0) 7).2 ≠ 0 ∧
      (Db.trExecOptsAssign [{ op := some "find" }] (some 0) 7).1.getD
          ((Db.trExecOptsAssign [{ op := some "find" }] (some 0) 7).2) {} =
        { client := some 7, op := some "find" }) := by
  have h := transact_clones_ctx [{ op := some "find" }] 0 7 (by decide)
  exact h

/-! ## C1: transact -/

theorem exec_str_client (driver : Db.Driver) (build : Db.SqlBuilder) (s : String)
    (o : Db.ExecOpts) (c : Nat) (cnt : Db.Cnt) (ho : o.client = some c) :
    Db.exec driver build (.str s) (.opts o) none cnt =
      (driver c s [],
        ⟨cnt.nextClient, cnt.clock + 2⟩,
        [Db.Ev.query c s [],
          Db.Ev.emitFinish
            ⟨none, s, [], o, cnt.clock, cnt.clock + 1, cnt.clock + 1 - cnt.clock,
              (driver c s []).toOption,
              match driver c s [] with | .error e => some e | .ok _ => none⟩]) := by
  simp [Db.exec, Db.isArrArg, Db.execRun, ho]

/-- C1 (confirmed): for a ctx with no client, `transact` acquires one
connection and issues `BEGIN`; if `f` resolves it issues `COMMIT` and
returns `f`'s result, if `f` rejects it issues `ROLLBACK` and rethrows `f`'s
original error; in both cases the connection is acquired and released
exactly once (given that `f` itself, which reuses the transaction's client,
neither connects nor releases it). With a client already on the ctx,
`transact` runs `f` on that ctx directly — no `BEGIN`/`COMMIT`/`ROLLBACK`,
no connection handling — which is why nested `transact` calls sharing one
ctx issue a single BEGIN/COMMIT pair. The transaction-control statements are
assumed to succeed on the acquired connection. -/
theorem transact_begin_commit_rollback_release {α : Type} :
    ∀ (driver : Db.Driver) (build : Db.SqlBuilder)
      (f : Db.ExecOpts → Db.Cnt → Except Db.DbErr α × Db.Cnt × List Db.Ev)
      (ctx : Option Db.ExecOpts) (cnt : Db.Cnt)
      (rB rC rR : Db.QueryRes) (fres : Except Db.DbErr α) (fcnt : Db.Cnt) (fevs : List Db.Ev),
      Db.ctxClient ctx = none →
      driver cnt.nextClient "BEGIN" [] = .ok rB →
      driver cnt.nextClient "COMMIT" [] = .ok rC →
      driver cnt.nextClient "ROLLBACK" [] = .ok rR →
      f (Db.trOptsOf ctx cnt.nextClient) ⟨cnt.nextClient + 1, cnt.clock + 2⟩ = (fres, fcnt, fevs) →
      (fevs.filter (Db.isReleaseOf cnt.nextClient)).length = 0 →
      (fevs.filter (Db.isConnectOf cnt.nextClient)).length = 0 →
      ((∀ v : α, fres = .ok v →
          (Db.transact driver build f ctx cnt).1 = .ok v ∧
          ∃ dataB dataC : Db.FinishRec, dataB.statement = "BEGIN" ∧ dataC.statement = "COMMIT" ∧
            (Db.transact driver build f ctx cnt).2.2 =
              Db.Ev.connect cnt.nextClient ::
                ([Db.Ev.query cnt.nextClient "BEGIN" [], Db.Ev.emitFinish dataB] ++ fevs ++
                  ([Db.Ev.query cnt.nextClient "COMMIT" [], Db.Ev.emitFinish dataC] ++
                    [Db.Ev.release cnt.nextClient]))) ∧
        (∀ e : Db.DbErr, fres = .error e →
          (Db.transact driver build f ctx cnt).1 = .error e ∧
          ∃ dataB dataR : Db.FinishRec, dataB.statement = "BEGIN" ∧ dataR.statement = "ROLLBACK" ∧
            (Db.transact driver build f ctx cnt).2.2 =
              Db.Ev.connect cnt.nextClient ::
                ([Db.Ev.query cnt.nextClient "BEGIN" [], Db.Ev.emitFinish dataB] ++ fevs ++
                  ([Db.Ev.query cnt.nextClient "ROLLBACK" [], Db.Ev.emitFinish dataR] ++
                    [Db.Ev.release cnt.nextClient]))) ∧
        (((Db.transact driver build f ctx cnt).2.2.filter
            (Db.isReleaseOf cnt.nextClient)).length = 1 ∧
          ((Db.transact driver build f ctx cnt).2.2.filter
            (Db.isConnectOf cnt.nextClient)).length = 1) ∧
        (∀ o : Db.ExecOpts, o.client.isSome = true →
          Db.transact driver build f (some o) cnt = f o cnt)) := by
  intro driver build f ctx cnt rB rC rR fres fcnt fevs hctx hB hC hR hf hfr hfc
  have hguard : (Db.ctxClient ctx).isSome = false := by rw [hctx]; rfl
  have hb := exec_str_client driver build "BEGIN" (Db.trOptsOf ctx cnt.nextClient)
    cnt.nextClient ⟨cnt.nextClient + 1, cnt.clock⟩ rfl
  rw [hB] at hb
  simp only [Db.trOptsOf] at hb hf
  have hrun : Db.transact driver build f ctx cnt =
      (match fres with
        | .ok v =>
            (Except.ok v, (⟨fcnt.nextClient, fcnt.clock + 2⟩ : Db.Cnt),
              Db.Ev.connect cnt.nextClient ::
                ([Db.Ev.query cnt.nextClient "BEGIN" [],
                    Db.Ev.emitFinish
                      ⟨none, "BEGIN", [], { (ctx.getD {}) with client := some cnt.nextClient },
                        cnt.clock, cnt.clock + 1, cnt.clock + 1 - cnt.clock,
                        some rB, none⟩] ++ fevs ++
                  ([Db.Ev.query cnt.nextClient "COMMIT" [],
                      Db.Ev.emitFinish
                        ⟨none, "COMMIT", [], { (ctx.getD {}) with client := some cnt.nextClient },
                          fcnt.clock, fcnt.clock + 1, fcnt.clock + 1 - fcnt.clock,
                          some rC, none⟩] ++
                    [Db.Ev.release cnt.nextClient])))
        | .error e =>
            (Except.error e, (⟨fcnt.nextClient, fcnt.clock + 2⟩ : Db.Cnt),
              Db.Ev.connect cnt.nextClient ::
                ([Db.Ev.query cnt.nextClient "BEGIN" [],
                    Db.Ev.emitFinish
                      ⟨none, "BEGIN", [], { (ctx.getD {}) with client := some cnt.nextClient },
                        cnt.clock, cnt.clock + 1, cnt.clock + 1 - cnt.clock,
                        some rB, none⟩] ++ fevs ++
                  ([Db.Ev.query cnt.nextClient "ROLLBACK" [],
                      Db.Ev.emitFinish
                        ⟨none, "ROLLBACK", [], { (ctx.getD {}) with client := some cnt.nextClient },
                          fcnt.clock, fcnt.clock + 1, fcnt.clock + 1 - fcnt.clock,
                          some rR, none⟩] ++
                    [Db.Ev.release cnt.nextClient])))) := by
    simp only [Db.transact, hguard, Bool.false_eq_true, if_false, hb, hf]
    cases fres with
    | ok v =>
        have hco := exec_str_client driver build "COMMIT"
          { (ctx.getD {}) with client := some cnt.nextClient } cnt.nextClient fcnt rfl
        rw [hC] at hco
        simp only [hco, Except.toOption]
        simp [List.append_assoc]
    | error e =>
        have hro := exec_str_client driver build "ROLLBACK"
          { (ctx.getD {}) with client := some cnt.nextClient } cnt.nextClient fcnt rfl
        rw [hR] at hro
        simp only [hro, Except.toOption]
        simp [List.append_assoc]
  refine ⟨?_, ?_, ?_, ?_⟩
  · intro v hv
    subst hv
    rw [hrun]
    exact ⟨rfl, ⟨_, _, rfl, rfl, rfl⟩⟩
  · intro e he
    subst he
    rw [hrun]
    exact ⟨rfl, ⟨_, _, rfl, rfl, rfl⟩⟩
  · rw [hrun]
    cases fres with
    | ok v =>
        constructor <;>
          simp [List.filter_append, Db.isReleaseOf, Db.isConnectOf, hfr, hfc, List.filter]
    | error e =>
        constructor <;>
          simp [List.filter_append, Db.isReleaseOf, Db.isConnectOf, hfr, hfc, List.filter]
  · intro o ho
    simp [Db.transact, Db.ctxClient, ho]

/-- Witness for C1 at concrete inputs: an always-succeeding driver and an
inner function resolving with `0` and issuing nothing; the transaction
returns `0`. -/
theorem transact_begin_commit_rollback_release_witness :
    (Db.transact (fun _ _ _ => .ok ⟨[]⟩) (fun _ => ("", []))
        (fun _ c => (Except.ok (0 : Nat), c, [])) none ⟨0, 0⟩).1 = Except.ok 0 := by
  have h := transact_begin_commit_rollback_release (fun _ _ _ => .ok ⟨[]⟩) (fun _ => ("", []))
    (fun _ c => (Except.ok (0 : Nat), c, [])) none ⟨0, 0⟩ ⟨[]⟩ ⟨[]⟩ ⟨[]⟩ (Except.ok 0) ⟨1, 2⟩ []
    rfl rfl rfl rfl rfl rfl rfl
  exact (h.1 0 rfl).1
